import Mathlib

/-!
# Verification of the custom-backend tensor operator kernels

A shallow embedding, in Lean 4, of the core operators of the
pytorch2-custom-backend repository:

* the concatenation offset computer and batched copy kernel
  (`src/csrc/aten/operators/Cat.cpp`),
* the concatenation planner with its validation and fallback path,
* the linear operator family with fused post-ops
  (`src/csrc/gpu/aten/operators/Linear.cpp`),
* the triangular mask kernel and the LU driver
  (`src/torch_ipex/csrc/gpu/aten/operators/BatchLinearAlgebra.cpp`).

Machine integers of the kernels are embedded as `Nat`/`Int`: the fast cat
path is guarded by `canUse32BitIndexMath`, under which none of the index
arithmetic below can overflow an unsigned 32-bit integer, so the embedding
keeps plain natural-number arithmetic.  Floating point values of the linear
family are embedded as exact rationals.  Device buffers are embedded as
total functions from element offsets to values, and parallel kernels whose
workers write pairwise disjoint locations are embedded as sequential folds
over the iteration space.
-/

namespace CatOps

/-- Faithful embedding of the loop body of `CatArrIndexToOffset::compute`
(`Cat.cpp` lines 47-55).  `computeLoop os ost dimSize concatDim i li`
processes dimensions `i, i-1, …, 1` (the source loop runs
`for (int i = Dims - 1; i >= 1; --i)`), returning the accumulated offset
together with the remaining quotient of `linearIndex`. -/
def computeLoop (outputSize outputStride : List Nat) (dimSize concatDim : Nat) :
    Nat → Nat → Nat × Nat
  | 0, li => (0, li)
  | i + 1, li =>
    let curDimSize := if i + 1 = concatDim then dimSize else outputSize.getD (i + 1) 0
    let nextDimIndex := li / curDimSize
    let curDimIndex := li - curDimSize * nextDimIndex
    let p := computeLoop outputSize outputStride dimSize concatDim i nextDimIndex
    (curDimIndex * outputStride.getD (i + 1) 0 + p.1, p.2)

namespace CatArrIndexToOffset

/-- Embedding of `CatArrIndexToOffset<IndexType, Dims>::compute`
(`Cat.cpp` lines 35-58): decompose the input-local linear index into
per-dimension indices (the concatenation dimension uses the current input's
size `dimSize` as divisor, every other dimension the output's size) and
recombine them with the output strides; dimension 0 takes the final
remaining quotient with no modulo. -/
def compute (Dims : Nat) (outputSize outputStride : List Nat)
    (dimSize concatDim linearIndex : Nat) : Nat :=
  let p := computeLoop outputSize outputStride dimSize concatDim (Dims - 1) linearIndex
  p.1 + p.2 * outputStride.getD 0 0

end CatArrIndexToOffset

/-- Row-major contiguous strides for a size vector: the stride of a
dimension is the product of all later sizes.  This is the stride layout of
the freshly resized contiguous output tensor on which the fast cat path
operates. -/
def contigStrides : List Nat → List Nat
  | [] => []
  | _ :: rest => rest.prod :: contigStrides rest

/-- Row-major digit extraction, innermost dimension first: over the
reversed size list, each dimension contributes `li % size` and passes
`li / size` on. -/
def decodeRev : List Nat → Nat → List Nat
  | [], _ => []
  | s :: rest, li => li % s :: decodeRev rest (li / s)

/-- The multi-dimensional coordinates of the element at row-major linear
index `li` of a contiguous tensor with the given sizes (outermost
dimension first). -/
def rowMajorCoords (sizes : List Nat) (li : Nat) : List Nat :=
  (decodeRev sizes.reverse li).reverse

/-- The memory position of an element with the given per-dimension
coordinates in a buffer with the given per-dimension strides. -/
def stridedPos (strides coords : List Nat) : Nat :=
  (List.zipWith (· * ·) coords strides).sum

@[simp] lemma contigStrides_length (os : List Nat) :
    (contigStrides os).length = os.length := by
  induction os with
  | nil => rfl
  | cons o rest ih => simp [contigStrides, ih]

@[simp] lemma decodeRev_nil (li : Nat) : decodeRev [] li = [] := rfl

@[simp] lemma decodeRev_cons (s : Nat) (rest : List Nat) (li : Nat) :
    decodeRev (s :: rest) li = li % s :: decodeRev rest (li / s) := rfl

/-- A device tensor of the concatenation operator: a logical shape together
with the element at each row-major linear offset of its (contiguous)
buffer, plus the metadata the planner's validation inspects.  `defined`
mirrors `Tensor::defined()` (skipped placeholders are undefined tensors of
rank 1), `dtype` the scalar type tag, and `storageId`/`storageLo`/
`storageHi` locate the allocated extent `[storageLo, storageHi)` of the
tensor inside the storage named by `storageId`. -/
structure TensorM where
  defined : Bool
  sizes : List Nat
  dtype : Nat
  storageId : Nat
  storageLo : Nat
  storageHi : Nat
  data : Nat → Int

/-- `should_skip` from `impl::cat` (`Cat.cpp` lines 249-251): a tensor is
skipped when it is undefined and of rank 1. -/
def should_skip (t : TensorM) : Bool :=
  !t.defined && t.sizes.length == 1

/-- Modelled from the spec: `at::get_overlap_status(result, input)` reports
PARTIAL or FULL overlap — an input whose allocated storage intersects the
output's allocated storage.  The framework primitive itself is external;
per the spec an AliasingError must be signalled for partial or full
overlap, which happens exactly when both tensors live in the same storage
and their allocated intervals intersect. -/
def overlapsOut (out t : TensorM) : Bool :=
  t.defined && out.storageId == t.storageId &&
    max out.storageLo t.storageLo < min out.storageHi t.storageHi

/-- Modelled from the spec: `canUse32BitIndexMath` (framework helper, "total
element count of a tensor fits within a 32-bit unsigned index"). -/
def can32 (t : TensorM) : Bool :=
  t.sizes.prod ≤ 2 ^ 31 - 1

/-- Write one element into a flat buffer. -/
def writeAt (buf : Nat → Int) (pos : Nat) (v : Int) : Nat → Int :=
  fun p => if p = pos then v else buf p

/-- One input of `CatArrayBatchedCopy` (`Cat.cpp` lines 109-136),
sequentialized: the grid-stride workers of the kernel jointly visit every
`tid < nElements` exactly once and write pairwise distinct output
locations, so the parallel dispatch is embedded as a fold over the
iteration space.  Each element `tid` of the (contiguous) input is written
to `offset * dimStride + CatArrIndexToOffset::compute(..., tid)`, with
`dimStride = outputStride[concatDim]`. -/
def copyInputFast (os ost : List Nat) (concatDim : Nat) (t : TensorM)
    (offset : Nat) (out : Nat → Int) : Nat → Int :=
  (List.range t.sizes.prod).foldl
    (fun acc tid =>
      writeAt acc
        (offset * ost.getD concatDim 0 +
          CatArrIndexToOffset.compute os.length os ost
            (t.sizes.getD concatDim 0) concatDim tid)
        (t.data tid))
    out

/-- Embedding of `parallel_cat` (`Cat.cpp` lines 142-220): walk the inputs
in order, tracking the running conceptual offset along the concat
dimension, and dispatch the batched copy for each input.  The batching into
groups of 1024 only splits the very same sequence of per-input copies
across several kernel launches, so the embedding folds over the inputs
directly.  The output has just been resized, hence contiguous strides. -/
def parallel_cat (out : Nat → Int) (os : List Nat) (inputs : List TensorM)
    (dimension : Nat) : Nat → Int :=
  (inputs.foldl
    (fun (st : (Nat → Int) × Nat) t =>
      (copyInputFast os (contigStrides os) dimension t st.2 st.1,
        st.2 + t.sizes.getD dimension 0))
    (out, 0)).1

/-- Modelled from the spec: `at::narrow(result, dim, offset, dimSize)`
followed by `nt.copy_(input)` — the framework's generic strided-copy
primitive, which the spec treats as an external collaborator ("copy it into
the sub-region of `output` spanning `[runningOffset, runningOffset +
inputSizeAlongDim)` along the concat dimension").  Element `li` of the
contiguous input, whose multi-dimensional coordinates are
`rowMajorCoords t.sizes li`, lands at the output position with the same
coordinates shifted by `offset` along the concat dimension. -/
def copyInputNarrow (ost : List Nat) (concatDim : Nat) (t : TensorM)
    (offset : Nat) (out : Nat → Int) : Nat → Int :=
  (List.range t.sizes.prod).foldl
    (fun acc li =>
      writeAt acc
        (offset * ost.getD concatDim 0 +
          stridedPos ost (rowMajorCoords t.sizes li))
        (t.data li))
    out

/-- Embedding of the fallback narrow-and-copy loop of `impl::cat`
(`Cat.cpp` lines 336-344): for each non-skipped input in order, copy it
into the sub-region of the output starting at the running offset along the
concat dimension, then advance the offset. -/
def fallback_cat (out : Nat → Int) (os : List Nat) (inputs : List TensorM)
    (dimension : Nat) : Nat → Int :=
  (inputs.foldl
    (fun (st : (Nat → Int) × Nat) t =>
      if should_skip t then st
      else
        (copyInputNarrow (contigStrides os) dimension t st.2 st.1,
          st.2 + t.sizes.getD dimension 0))
    (out, 0)).1

/-- The error taxonomy of the concatenation planner (spec section 7). -/
inductive CatError where
  | typeError
  | aliasingError
  | shapeMismatchError
  deriving DecidableEq, Repr

/-- Embedding of `check_shape_except_dim` (`Cat.cpp` lines 222-237): both
tensors must have the same rank, and equal sizes in every dimension other
than the concat dimension. -/
def check_shape_except_dim (first second : TensorM) (dimension : Nat) : Bool :=
  first.sizes.length == second.sizes.length &&
    (List.range first.sizes.length).all fun dim =>
      dim == dimension || first.sizes.getD dim 0 == second.sizes.getD dim 0

/-- The loop of `impl::cat` over the inputs (`Cat.cpp` lines 274-281):
remember whether any input was skipped and keep the last non-skipped
tensor (whose rank becomes `nDims`). -/
def findLastNonSkipped (inputs : List TensorM) : Option TensorM :=
  inputs.foldl (fun acc t => if should_skip t then acc else some t) none

/-- The shape-validation loop of `impl::cat` (`Cat.cpp` lines 296-304):
every non-skipped input is checked against the remembered non-skipped
tensor, and the sizes along the concat dimension are summed. -/
def shapeLoop (notSkipped : TensorM) (dimension : Nat) :
    List TensorM → Except CatError Nat
  | [] => .ok 0
  | t :: rest =>
    if should_skip t then shapeLoop notSkipped dimension rest
    else if check_shape_except_dim notSkipped t dimension then
      (shapeLoop notSkipped dimension rest).map (t.sizes.getD dimension 0 + ·)
    else .error .shapeMismatchError

/-- The fast-path eligibility test of `impl::cat` (`Cat.cpp` lines
324-327).  In this embedding every tensor is stored contiguously, so the
`allContiguous` conjunct is always satisfied. -/
def fastPathEligible (result : TensorM) (inputs : List TensorM)
    (allSameType : Bool) : Bool :=
  decide (1 < inputs.length) && !(inputs.any should_skip) &&
    result.sizes.length ≤ 3 && can32 result && inputs.all can32 && allSameType

/-- Embedding of `impl::cat` (`Cat.cpp` lines 239-346) as an explicit state
transformer on the output tensor: the returned tensor is the output buffer
after the call, and the optional error reports a validation failure (in
which case the output is handed back untouched).  Step order follows the
source: type-promotion check, aliasing check, skip scan, all-empty early
return, shape validation with concat-size accumulation, resize, then the
fast batched copy or the narrow-and-copy fallback.  The framework's
type-promotion verdict (`canCast(result_type(inputs), ...)`) is external
and enters as the boolean `can_cast`. -/
def implCat (result : TensorM) (inputs : List TensorM) (dimension : Nat)
    (allSameType can_cast : Bool) : TensorM × Option CatError :=
  if !can_cast then (result, some .typeError)
  else if inputs.any (overlapsOut result) then (result, some .aliasingError)
  else
    match findLastNonSkipped inputs with
    | none => (result, none)
    | some notSkippedTensor =>
      let nDims := notSkippedTensor.sizes.length
      match shapeLoop notSkippedTensor dimension inputs with
      | .error e => (result, some e)
      | .ok cat_dim_size =>
        let size := (List.range nDims).map fun dim =>
          if dim = dimension then cat_dim_size
          else notSkippedTensor.sizes.getD dim 0
        let resized : TensorM := { result with sizes := size }
        let newData :=
          if fastPathEligible resized inputs allSameType then
            parallel_cat resized.data size inputs dimension
          else
            fallback_cat resized.data size inputs dimension
        ({ resized with data := newData }, none)

/-- Modelled from the spec: `xpu::oneDNN::concat`, the external library
concatenation taken when all types agree and the library supports the
configuration.  The spec treats it as an assumed-correct collaborator
producing the concatenation, here expressed with the same shape
computation and the narrow-and-copy semantics. -/
def onednnConcat (out : TensorM) (tensors : List TensorM) (dimension : Nat) :
    TensorM :=
  match findLastNonSkipped tensors with
  | none => out
  | some notSkippedTensor =>
    let nDims := notSkippedTensor.sizes.length
    let catSize := (tensors.map fun t => t.sizes.getD dimension 0).sum
    let size := (List.range nDims).map fun dim =>
      if dim = dimension then catSize else notSkippedTensor.sizes.getD dim 0
    { out with
        sizes := size
        data := fallback_cat out.data size tensors dimension }

/-- Embedding of `_cat_out` (`Cat.cpp` lines 350-379), the public
`concatenate` entry point: first the aliasing validation over all inputs,
then the same-type scan, then dispatch either to the external oneDNN concat
(all types equal and the configuration supported, reported by the external
predicate `cat_valid`) or to `impl::cat`.  As in `implCat`, the result pairs
the output tensor after the call with an optional validation error. -/
def catOut (out : TensorM) (tensors : List TensorM) (dimension : Nat)
    (cat_valid can_cast : Bool) : TensorM × Option CatError :=
  if tensors.any (overlapsOut out) then (out, some .aliasingError)
  else
    let firstType := (tensors.headD { out with defined := false }).dtype
    let allSameType :=
      (tensors.all fun t => t.dtype == firstType) && out.dtype == firstType
    if !allSameType || !cat_valid then
      implCat out tensors dimension allSameType can_cast
    else
      (onednnConcat out tensors dimension, none)

/-! ### Arithmetic toolbox for the offset computer -/

lemma sub_mul_div_eq_mod (li s : Nat) : li - s * (li / s) = li % s := by
  have h := Nat.div_add_mod li s
  omega

lemma digit_peel_mod (a b n : Nat) (ha : a < b) : (a + b * n) % b = a := by
  rw [Nat.add_mul_mod_self_left, Nat.mod_eq_of_lt ha]

lemma digit_peel_div (a b n : Nat) (ha : a < b) : (a + b * n) / b = n := by
  have hb : 0 < b := Nat.pos_of_ne_zero (by omega)
  rw [Nat.add_mul_div_left _ _ hb, Nat.div_eq_of_lt ha, Nat.zero_add]

lemma top_digit_lt2 (x y li : Nat) (h : li < x * y) : li / y < x := by
  have hy : 0 < y := by
    rcases Nat.eq_zero_or_pos y with h0 | h0
    · subst h0; simp at h
    · exact h0
  rw [Nat.div_lt_iff_lt_mul hy]
  exact h

lemma top_digit_lt3 (x y z li : Nat) (h : li < x * (y * z)) :
    li / z / y < x := by
  have hz : 0 < z := by
    rcases Nat.eq_zero_or_pos z with h0 | h0
    · subst h0; simp at h
    · exact h0
  have h1 : li / z < x * y := by
    rw [Nat.div_lt_iff_lt_mul hz, Nat.mul_assoc]
    exact h
  exact top_digit_lt2 x y _ h1

/-- The heart of the fast/fallback agreement: on an input-local linear
index inside the input's element count, the offset computer of the batched
kernel produces exactly the strided output position of the element's
row-major coordinates (for ranks 1, 2 and 3, contiguous output strides,
and an input agreeing with the output in every non-concat dimension). -/
lemma compute_eq_stridedPos (os s : List Nat) (concatDim li : Nat)
    (hlen : s.length = os.length)
    (hr1 : 1 ≤ os.length) (hr3 : os.length ≤ 3)
    (hcd : concatDim < os.length)
    (hmatch : ∀ d, d < os.length → d ≠ concatDim →
      s.getD d 0 = os.getD d 0)
    (hli : li < s.prod) :
    CatArrIndexToOffset.compute os.length os (contigStrides os)
        (s.getD concatDim 0) concatDim li
      = stridedPos (contigStrides os) (rowMajorCoords s li) := by
  rcases os with _ | ⟨o0, _ | ⟨o1, _ | ⟨o2, orest⟩⟩⟩
  · simp at hr1
  · -- rank 1
    rcases s with _ | ⟨s0, _ | ⟨s1, srest⟩⟩
    · simp at hlen
    · have hcd0 : concatDim = 0 := by
        simp only [List.length_cons, List.length_nil] at hcd
        omega
      subst hcd0
      simp only [List.prod_cons, List.prod_nil, Nat.mul_one] at hli
      simp [CatArrIndexToOffset.compute, computeLoop, contigStrides,
        stridedPos, rowMajorCoords, decodeRev, List.getD,
        Nat.mod_eq_of_lt hli]
    · simp at hlen
  · -- rank 2
    rcases s with _ | ⟨s0, _ | ⟨s1, _ | ⟨s2, srest⟩⟩⟩
    · simp at hlen
    · simp at hlen
    · simp only [List.prod_cons, List.prod_nil, Nat.mul_one] at hli
      have hcd2 : concatDim < 2 := by
        simpa using hcd
      have htop : li / s1 < s0 := top_digit_lt2 s0 s1 li hli
      interval_cases concatDim
      · -- concat dimension 0
        have h1 : s1 = o1 := by simpa using hmatch 1 (by simp) (by simp)
        subst h1
        simp [CatArrIndexToOffset.compute, computeLoop, contigStrides,
          stridedPos, rowMajorCoords, decodeRev, List.getD]
        rw [sub_mul_div_eq_mod, Nat.mod_eq_of_lt htop]
        ring
      · -- concat dimension 1
        have h0 : s0 = o0 := by simpa using hmatch 0 (by simp) (by simp)
        subst h0
        simp [CatArrIndexToOffset.compute, computeLoop, contigStrides,
          stridedPos, rowMajorCoords, decodeRev, List.getD]
        rw [sub_mul_div_eq_mod, Nat.mod_eq_of_lt htop]
        ring
    · simp at hlen
  · rcases orest with _ | ⟨o3, orest'⟩
    · -- rank 3
      rcases s with _ | ⟨s0, _ | ⟨s1, _ | ⟨s2, _ | ⟨s3, srest⟩⟩⟩⟩
      · simp at hlen
      · simp at hlen
      · simp at hlen
      · simp only [List.prod_cons, List.prod_nil, Nat.mul_one] at hli
        have hcd3 : concatDim < 3 := by
          simpa using hcd
        have htop : li / s2 / s1 < s0 := top_digit_lt3 s0 s1 s2 li hli
        interval_cases concatDim
        · -- concat dimension 0
          have h1 : s1 = o1 := by simpa using hmatch 1 (by simp) (by simp)
          have h2 : s2 = o2 := by simpa using hmatch 2 (by simp) (by simp)
          subst h1; subst h2
          simp [CatArrIndexToOffset.compute, computeLoop, contigStrides,
          stridedPos, rowMajorCoords, decodeRev, List.getD]
          rw [sub_mul_div_eq_mod, sub_mul_div_eq_mod, Nat.mod_eq_of_lt htop]
          ring
        · -- concat dimension 1
          have h0 : s0 = o0 := by simpa using hmatch 0 (by simp) (by simp)
          have h2 : s2 = o2 := by simpa using hmatch 2 (by simp) (by simp)
          subst h0; subst h2
          simp [CatArrIndexToOffset.compute, computeLoop, contigStrides,
          stridedPos, rowMajorCoords, decodeRev, List.getD]
          rw [sub_mul_div_eq_mod, sub_mul_div_eq_mod, Nat.mod_eq_of_lt htop]
          ring
        · -- concat dimension 2
          have h0 : s0 = o0 := by simpa using hmatch 0 (by simp) (by simp)
          have h1 : s1 = o1 := by simpa using hmatch 1 (by simp) (by simp)
          subst h0; subst h1
          simp [CatArrIndexToOffset.compute, computeLoop, contigStrides,
          stridedPos, rowMajorCoords, decodeRev, List.getD]
          rw [sub_mul_div_eq_mod, sub_mul_div_eq_mod, Nat.mod_eq_of_lt htop]
          ring
      · simp at hlen
    · simp only [List.length_cons] at hr3
      omega

/-! ### Distinctness and in-extent bounds for the produced offsets -/

lemma decodeRev_length (l : List Nat) (li : Nat) :
    (decodeRev l li).length = l.length := by
  induction l generalizing li with
  | nil => rfl
  | cons s rest ih => simp [decodeRev, ih]

lemma rowMajorCoords_length (s : List Nat) (li : Nat) :
    (rowMajorCoords s li).length = s.length := by
  simp [rowMajorCoords, decodeRev_length]

lemma pos_of_lt_prod {l : List Nat} {li : Nat} (h : li < l.prod) :
    ∀ x ∈ l, 0 < x := by
  intro x hx
  rcases Nat.eq_zero_or_pos x with h0 | h0
  · subst h0
    rw [List.prod_eq_zero hx] at h
    omega
  · exact h0

lemma decodeRev_forall₂ (l : List Nat) (li : Nat) (hpos : ∀ x ∈ l, 0 < x) :
    List.Forall₂ (· < ·) (decodeRev l li) l := by
  induction l generalizing li with
  | nil => exact .nil
  | cons s rest ih =>
    exact .cons (Nat.mod_lt _ (hpos s (by simp)))
      (ih _ fun x hx => hpos x (by simp [hx]))

lemma rowMajorCoords_forall₂ (s : List Nat) (li : Nat)
    (hpos : ∀ x ∈ s, 0 < x) :
    List.Forall₂ (· < ·) (rowMajorCoords s li) s := by
  have h := decodeRev_forall₂ s.reverse li
    (fun x hx => hpos x (List.mem_reverse.1 hx))
  have h2 : List.Forall₂ (· < ·) ((decodeRev s.reverse li).reverse)
      s.reverse.reverse := List.rel_reverse h
  rwa [List.reverse_reverse] at h2

lemma stridedPos_cons (st0 c0 : Nat) (strest crest : List Nat) :
    stridedPos (st0 :: strest) (c0 :: crest)
      = c0 * st0 + stridedPos strest crest := by
  simp [stridedPos]

lemma stridedPos_lt_prod {os c : List Nat}
    (hb : List.Forall₂ (· < ·) c os) :
    stridedPos (contigStrides os) c < os.prod := by
  induction hb with
  | nil => simp [stridedPos, contigStrides]
  | @cons c0 o crest orest h0 hrest ih =>
    rw [contigStrides, stridedPos_cons, List.prod_cons]
    calc c0 * orest.prod + stridedPos (contigStrides orest) crest
        < c0 * orest.prod + orest.prod := Nat.add_lt_add_left ih _
      _ = (c0 + 1) * orest.prod := by ring
      _ ≤ o * orest.prod := Nat.mul_le_mul_right _ h0

lemma digit_unique (P a a' b b' : Nat) (ha : a < P) (ha' : a' < P)
    (h : a + P * b = a' + P * b') : a = a' ∧ b = b' := by
  have e1 := digit_peel_mod a P b ha
  have e2 := digit_peel_mod a' P b' ha'
  have e3 := digit_peel_div a P b ha
  have e4 := digit_peel_div a' P b' ha'
  rw [h] at e1 e3
  exact ⟨e1.symm.trans e2, e3.symm.trans e4⟩

lemma digit_unique_mul (P a a' b b' : Nat) (ha : a < P) (ha' : a' < P)
    (h : b * P + a = b' * P + a') : a = a' ∧ b = b' := by
  apply digit_unique P a a' b b' ha ha'
  calc a + P * b = b * P + a := by ring
    _ = b' * P + a' := h
    _ = a' + P * b' := by ring

lemma stridedPos_inj {os c c' : List Nat}
    (hb : List.Forall₂ (· < ·) c os)
    (hb' : List.Forall₂ (· < ·) c' os)
    (heq : stridedPos (contigStrides os) c
      = stridedPos (contigStrides os) c') : c = c' := by
  induction hb generalizing c' with
  | nil =>
    cases hb'
    rfl
  | @cons c0 o crest orest h0 hrest ih =>
    rcases hb' with _ | ⟨h0', hrest'⟩
    rename_i c0' crest'
    simp only [contigStrides, stridedPos_cons] at heq
    have hS := stridedPos_lt_prod hrest
    have hS' := stridedPos_lt_prod hrest'
    obtain ⟨hSeq, hc0⟩ := digit_unique_mul orest.prod _ _ _ _ hS hS' heq
    rw [hc0, ih hrest' hSeq]

lemma decodeRev_inj {l : List Nat} {li1 li2 : Nat}
    (h1 : li1 < l.prod) (h2 : li2 < l.prod)
    (heq : decodeRev l li1 = decodeRev l li2) : li1 = li2 := by
  induction l generalizing li1 li2 with
  | nil =>
    simp only [List.prod_nil] at h1 h2
    omega
  | cons s rest ih =>
    simp only [decodeRev_cons, List.cons.injEq] at heq
    simp only [List.prod_cons] at h1 h2
    have hs : 0 < s := by
      rcases Nat.eq_zero_or_pos s with h0 | h0
      · subst h0; simp at h1
      · exact h0
    have hd1 : li1 / s < rest.prod := by
      rw [Nat.div_lt_iff_lt_mul hs, Nat.mul_comm]
      exact h1
    have hd2 : li2 / s < rest.prod := by
      rw [Nat.div_lt_iff_lt_mul hs, Nat.mul_comm]
      exact h2
    have hq : li1 / s = li2 / s := ih hd1 hd2 heq.2
    have hr : li1 % s = li2 % s := heq.1
    have e1 := Nat.div_add_mod li1 s
    have e2 := Nat.div_add_mod li2 s
    rw [hq, hr] at e1
    exact e1.symm.trans e2

lemma rowMajorCoords_inj {s : List Nat} {li1 li2 : Nat}
    (h1 : li1 < s.prod) (h2 : li2 < s.prod)
    (heq : rowMajorCoords s li1 = rowMajorCoords s li2) : li1 = li2 := by
  have h1' : li1 < s.reverse.prod := by rwa [List.prod_reverse]
  have h2' : li2 < s.reverse.prod := by rwa [List.prod_reverse]
  exact decodeRev_inj h1' h2'
    (List.reverse_injective (by simpa [rowMajorCoords] using heq))

lemma forall₂_lt_of_lt_of_le {c s os : List Nat}
    (h1 : List.Forall₂ (· < ·) c s) (h2 : List.Forall₂ (· ≤ ·) s os) :
    List.Forall₂ (· < ·) c os := by
  induction h1 generalizing os with
  | nil => cases h2; exact .nil
  | cons hx hrest ih =>
    rcases h2 with _ | ⟨hy, hrest2⟩
    exact .cons (Nat.lt_of_lt_of_le hx hy) (ih hrest2)

lemma getD_set_self (os : List Nat) (k d : Nat) (hk : k < os.length) :
    (os.set k d).getD k 0 = d := by
  induction os generalizing k with
  | nil => simp at hk
  | cons o rest ih =>
    cases k with
    | zero => rfl
    | succ k => exact ih k (by simpa using hk)

lemma getD_set_ne (os : List Nat) (k d j : Nat) (hne : j ≠ k) :
    (os.set k d).getD j 0 = os.getD j 0 := by
  induction os generalizing k j with
  | nil => simp
  | cons o rest ih =>
    cases k with
    | zero =>
      cases j with
      | zero => omega
      | succ j => simp
    | succ k =>
      cases j with
      | zero => rfl
      | succ j => simpa using ih k j (by omega)

lemma forall₂_le_set (os : List Nat) (k d : Nat) (hk : k < os.length)
    (hd : d ≤ os.getD k 0) :
    List.Forall₂ (· ≤ ·) (os.set k d) os := by
  induction os generalizing k with
  | nil => simp at hk
  | cons o rest ih =>
    cases k with
    | zero => exact .cons (by simpa using hd) (List.forall₂_same.2 fun x _ => le_refl x)
    | succ k =>
      exact .cons (le_refl o) (ih k (by simpa using hk) (by simpa using hd))

lemma forall₂_getD_lt {c s : List Nat}
    (h : List.Forall₂ (· < ·) c s) (i : Nat) (hi : i < c.length) :
    c.getD i 0 < s.getD i 0 := by
  induction h generalizing i with
  | nil => simp at hi
  | cons hx hrest ih =>
    cases i with
    | zero => simpa using hx
    | succ i => simpa using ih i (by simpa using hi)

lemma stridedPos_set_add (ost c : List Nat) (k b : Nat) (hk : k < c.length) :
    stridedPos ost (c.set k (c.getD k 0 + b))
      = stridedPos ost c + b * ost.getD k 0 := by
  induction c generalizing k ost with
  | nil => simp at hk
  | cons c0 crest ih =>
    cases ost with
    | nil =>
      cases k with
      | zero => simp [stridedPos]
      | succ k =>
        simp only [List.set_cons_succ, List.getD_cons_succ]
        simp [stridedPos, List.zipWith]
    | cons st0 strest =>
      cases k with
      | zero =>
        simp only [List.set_cons_zero, List.getD_cons_zero, stridedPos_cons]
        ring
      | succ k =>
        simp only [List.set_cons_succ, List.getD_cons_succ, stridedPos_cons]
        rw [ih strest k (by simpa using hk)]
        simp [List.getD_cons_succ]
        ring

lemma forall₂_lt_set_shift {c s : List Nat} (os : List Nat) (k b d : Nat)
    (hcs : List.Forall₂ (· < ·) c s) (hso : s = os.set k d)
    (hk : k < os.length) (hbd : b + d ≤ os.getD k 0) :
    List.Forall₂ (· < ·) (c.set k (c.getD k 0 + b)) os := by
  induction os generalizing c s k with
  | nil => simp at hk
  | cons o orest ih =>
    cases k with
    | zero =>
      subst hso
      rcases hcs with _ | ⟨hx, hrest⟩
      rename_i c0 crest
      simp only [List.getD_cons_zero] at hbd
      simp only [List.set_cons_zero, List.getD_cons_zero]
      exact .cons (by omega) hrest
    | succ k =>
      subst hso
      rcases hcs with _ | ⟨hx, hrest⟩
      rename_i c0 crest
      simp only [List.getD_cons_succ] at hbd
      simp only [List.set_cons_succ, List.getD_cons_succ]
      exact .cons hx (ih (k := k) hrest rfl (by simpa using hk) hbd)

/-! ### The fast batched path agrees with the narrow-and-copy fallback -/

lemma foldl_writeAt_congr (l : List Nat) (f g : Nat → Nat) (v : Nat → Int)
    (buf : Nat → Int) (h : ∀ x ∈ l, f x = g x) :
    l.foldl (fun acc i => writeAt acc (f i) (v i)) buf
      = l.foldl (fun acc i => writeAt acc (g i) (v i)) buf := by
  induction l generalizing buf with
  | nil => rfl
  | cons a l ih =>
    simp only [List.foldl_cons]
    rw [h a (by simp)]
    exact ih _ fun x hx => h x (List.mem_cons_of_mem _ hx)

lemma copyInputFast_eq_copyInputNarrow (os : List Nat) (concatDim : Nat)
    (t : TensorM) (offset : Nat) (out : Nat → Int)
    (hlen : t.sizes.length = os.length)
    (hr1 : 1 ≤ os.length) (hr3 : os.length ≤ 3)
    (hcd : concatDim < os.length)
    (hmatch : ∀ d, d < os.length → d ≠ concatDim →
      t.sizes.getD d 0 = os.getD d 0) :
    copyInputFast os (contigStrides os) concatDim t offset out
      = copyInputNarrow (contigStrides os) concatDim t offset out := by
  unfold copyInputFast copyInputNarrow
  exact foldl_writeAt_congr (List.range t.sizes.prod)
    (fun tid => offset * (contigStrides os).getD concatDim 0 +
      CatArrIndexToOffset.compute os.length os (contigStrides os)
        (t.sizes.getD concatDim 0) concatDim tid)
    (fun li => offset * (contigStrides os).getD concatDim 0 +
      stridedPos (contigStrides os) (rowMajorCoords t.sizes li))
    t.data out
    fun x hx => by
      dsimp only
      rw [compute_eq_stridedPos os t.sizes concatDim x hlen hr1 hr3 hcd hmatch
        (List.mem_range.1 hx)]

lemma cat_paths_foldl_eq (os : List Nat) (dimension : Nat)
    (inputs : List TensorM)
    (hr1 : 1 ≤ os.length) (hr3 : os.length ≤ 3) (hcd : dimension < os.length)
    (hnoskip : ∀ t ∈ inputs, should_skip t = false)
    (hshape : ∀ t ∈ inputs, t.sizes.length = os.length ∧
      ∀ d, d < os.length → d ≠ dimension → t.sizes.getD d 0 = os.getD d 0) :
    ∀ st : (Nat → Int) × Nat,
      inputs.foldl
        (fun (st : (Nat → Int) × Nat) t =>
          (copyInputFast os (contigStrides os) dimension t st.2 st.1,
            st.2 + t.sizes.getD dimension 0)) st
      = inputs.foldl
        (fun (st : (Nat → Int) × Nat) t =>
          if should_skip t then st
          else (copyInputNarrow (contigStrides os) dimension t st.2 st.1,
            st.2 + t.sizes.getD dimension 0)) st := by
  induction inputs with
  | nil => intro st; rfl
  | cons t rest ih =>
    intro st
    simp only [List.foldl_cons, hnoskip t (by simp), Bool.false_eq_true,
      if_false]
    rw [copyInputFast_eq_copyInputNarrow os dimension t st.2 st.1
      (hshape t (by simp)).1 hr1 hr3 hcd (hshape t (by simp)).2]
    exact ih (fun x hx => hnoskip x (List.mem_cons_of_mem _ hx))
      (fun x hx => hshape x (List.mem_cons_of_mem _ hx)) _

/-- Example inputs for the concatenation witnesses: a 1x3 and a 2x3
contiguous tensor in distinct storages. -/
def catInputA : TensorM :=
  { defined := true, sizes := [1, 3], dtype := 0, storageId := 1,
    storageLo := 0, storageHi := 3, data := fun i => (i : Int) + 1 }

def catInputB : TensorM :=
  { defined := true, sizes := [2, 3], dtype := 0, storageId := 2,
    storageLo := 0, storageHi := 6, data := fun i => (i : Int) + 10 }

/-- C2: for every input set satisfying the fast-path eligibility conditions
of `cat` (more than one input, no skipped inputs, output rank at most 3,
32-bit indexable inputs and output, all inputs contiguous — built into this
tensor model — and sharing the output's element type so that the element
values transfer unchanged), the buffer produced by the fast batched-copy
path `parallel_cat` is element-for-element identical to the buffer the
fallback narrow-and-copy loop produces for the same inputs and concat
dimension. -/
theorem cat_fast_path_matches_fallback
    (out : Nat → Int) (os : List Nat) (inputs : List TensorM)
    (dimension : Nat)
    (hr1 : 1 ≤ os.length) (hr3 : os.length ≤ 3) (hcd : dimension < os.length)
    (hmulti : 1 < inputs.length)
    (hnoskip : ∀ t ∈ inputs, should_skip t = false)
    (h32 : ∀ t ∈ inputs, can32 t = true)
    (h32out : os.prod ≤ 2 ^ 31 - 1)
    (hshape : ∀ t ∈ inputs, t.sizes.length = os.length ∧
      ∀ d, d < os.length → d ≠ dimension → t.sizes.getD d 0 = os.getD d 0) :
    parallel_cat out os inputs dimension
      = fallback_cat out os inputs dimension := by
  unfold parallel_cat fallback_cat
  rw [cat_paths_foldl_eq os dimension inputs hr1 hr3 hcd hnoskip hshape
    (out, 0)]

theorem cat_fast_path_matches_fallback_witness :
    parallel_cat (fun _ => 0) [3, 3] [catInputA, catInputB] 0
      = fallback_cat (fun _ => 0) [3, 3] [catInputA, catInputB] 0 :=
  cat_fast_path_matches_fallback (fun _ => 0) [3, 3] [catInputA, catInputB] 0
    (by decide) (by decide) (by decide) (by decide) (by decide) (by decide)
    (by decide) (by decide)

/-- C3: for every rank-1/2/3 output descriptor with contiguous strides,
every concat dimension, and every input of size `dimSize` along the concat
dimension placed at running offset `base` (so `base + dimSize` does not
exceed the output's concat-dimension size), the map sending each
`linearIndex` below the input's element count to its computed output offset
is injective, and every produced offset, after adding the input's base
offset times the concat-dimension stride, lies inside the output's
allocated extent. -/
theorem cat_offsets_distinct_and_within_extent
    (os : List Nat) (concatDim dimSize base : Nat)
    (hr1 : 1 ≤ os.length) (hr3 : os.length ≤ 3)
    (hcd : concatDim < os.length)
    (hbase : base + dimSize ≤ os.getD concatDim 0) :
    (∀ li1 li2, li1 < (os.set concatDim dimSize).prod →
        li2 < (os.set concatDim dimSize).prod →
        CatArrIndexToOffset.compute os.length os (contigStrides os) dimSize
            concatDim li1
          = CatArrIndexToOffset.compute os.length os (contigStrides os)
              dimSize concatDim li2 →
        li1 = li2) ∧
      ∀ li, li < (os.set concatDim dimSize).prod →
        base * (contigStrides os).getD concatDim 0 +
            CatArrIndexToOffset.compute os.length os (contigStrides os)
              dimSize concatDim li
          < os.prod := by
  have hsd : (os.set concatDim dimSize).getD concatDim 0 = dimSize :=
    getD_set_self os concatDim dimSize hcd
  have hmatch : ∀ d, d < os.length → d ≠ concatDim →
      (os.set concatDim dimSize).getD d 0 = os.getD d 0 :=
    fun d _ hne => getD_set_ne os concatDim dimSize d hne
  have hbridge : ∀ li, li < (os.set concatDim dimSize).prod →
      CatArrIndexToOffset.compute os.length os (contigStrides os) dimSize
          concatDim li
        = stridedPos (contigStrides os)
            (rowMajorCoords (os.set concatDim dimSize) li) := by
    intro li hli
    have h := compute_eq_stridedPos os (os.set concatDim dimSize) concatDim li
      (by simp) hr1 hr3 hcd hmatch hli
    rwa [hsd] at h
  have hso : List.Forall₂ (· ≤ ·) (os.set concatDim dimSize) os :=
    forall₂_le_set os concatDim dimSize hcd (by omega)
  constructor
  · intro li1 li2 h1 h2 heq
    rw [hbridge li1 h1, hbridge li2 h2] at heq
    have hpos := pos_of_lt_prod h1
    have hf1 := rowMajorCoords_forall₂ _ li1 hpos
    have hf2 := rowMajorCoords_forall₂ _ li2 hpos
    exact rowMajorCoords_inj h1 h2
      (stridedPos_inj (forall₂_lt_of_lt_of_le hf1 hso)
        (forall₂_lt_of_lt_of_le hf2 hso) heq)
  · intro li hli
    rw [hbridge li hli]
    have hpos := pos_of_lt_prod hli
    have hf := rowMajorCoords_forall₂ _ li hpos
    have hshift := forall₂_lt_set_shift os concatDim base dimSize hf rfl hcd
      (by omega)
    have hb := stridedPos_lt_prod hshift
    rw [stridedPos_set_add _ _ _ _
      (by rw [rowMajorCoords_length, List.length_set]; exact hcd)] at hb
    rw [Nat.add_comm]
    exact hb

theorem cat_offsets_distinct_and_within_extent_witness :
    1 + 2 ≤ [4, 3].getD 0 0 ∧
      1 * (contigStrides [4, 3]).getD 0 0 +
          CatArrIndexToOffset.compute [4, 3].length [4, 3]
            (contigStrides [4, 3]) 2 0 5
        < [4, 3].prod :=
  ⟨by decide,
    (cat_offsets_distinct_and_within_extent [4, 3] 0 2 1 (by decide)
      (by decide) (by decide) (by decide)).2 5 (by decide)⟩

/-! ### Shape computation and fail-fast aliasing validation -/

/-- The first non-skipped input of a `cat` call (the tensor the spec's
shape property is phrased against). -/
def firstNonSkipped : List TensorM → Option TensorM
  | [] => none
  | t :: rest => if should_skip t then firstNonSkipped rest else some t

/-- The sum, over the non-skipped inputs, of the sizes along the concat
dimension. -/
def catDimSum (inputs : List TensorM) (dimension : Nat) : Nat :=
  ((inputs.filter fun t => !should_skip t).map
    fun t => t.sizes.getD dimension 0).sum

lemma firstNonSkipped_mem {l : List TensorM} {t : TensorM}
    (h : firstNonSkipped l = some t) :
    t ∈ l ∧ should_skip t = false := by
  induction l with
  | nil => simp [firstNonSkipped] at h
  | cons a rest ih =>
    by_cases ha : should_skip a
    · rw [firstNonSkipped, if_pos ha] at h
      exact ⟨List.mem_cons_of_mem _ (ih h).1, (ih h).2⟩
    · rw [firstNonSkipped, if_neg ha] at h
      cases h
      exact ⟨List.mem_cons_self _ _, Bool.of_not_eq_true ha⟩

lemma findLastNonSkipped_aux (l : List TensorM) :
    ∀ acc : Option TensorM,
      (l.foldl (fun acc t => if should_skip t then acc else some t) acc = acc
          ∧ ∀ t ∈ l, should_skip t = true) ∨
        ∃ nsk, l.foldl (fun acc t => if should_skip t then acc else some t)
            acc = some nsk ∧ nsk ∈ l ∧ should_skip nsk = false := by
  induction l with
  | nil => intro acc; exact Or.inl ⟨rfl, by simp⟩
  | cons a rest ih =>
    intro acc
    by_cases ha : should_skip a
    · rcases ih acc with ⟨heq, hall⟩ | ⟨nsk, heq, hmem, hns⟩
      · refine Or.inl ⟨?_, ?_⟩
        · simpa [List.foldl_cons, ha] using heq
        · intro t ht
          rcases List.mem_cons.1 ht with rfl | ht
          · exact ha
          · exact hall t ht
      · exact Or.inr ⟨nsk, by simpa [List.foldl_cons, ha] using heq,
          List.mem_cons_of_mem _ hmem, hns⟩
    · rcases ih (some a) with ⟨heq, hall⟩ | ⟨nsk, heq, hmem, hns⟩
      · refine Or.inr ⟨a, ?_, List.mem_cons_self _ _, Bool.of_not_eq_true ha⟩
        simpa [List.foldl_cons, ha] using heq
      · exact Or.inr ⟨nsk, by simpa [List.foldl_cons, ha] using heq,
          List.mem_cons_of_mem _ hmem, hns⟩

lemma findLastNonSkipped_of_firstNonSkipped {l : List TensorM} {t : TensorM}
    (h : firstNonSkipped l = some t) :
    ∃ nsk, findLastNonSkipped l = some nsk ∧ nsk ∈ l ∧
      should_skip nsk = false := by
  rcases findLastNonSkipped_aux l none with ⟨_, hall⟩ | hex
  · obtain ⟨hmem, hns⟩ := firstNonSkipped_mem h
    rw [hall t hmem] at hns
    cases hns
  · exact hex

lemma check_shape_spec {a b : TensorM} {dimension : Nat}
    (h : check_shape_except_dim a b dimension = true) :
    a.sizes.length = b.sizes.length ∧
      ∀ d, d < a.sizes.length → d ≠ dimension →
        a.sizes.getD d 0 = b.sizes.getD d 0 := by
  simp only [check_shape_except_dim, Bool.and_eq_true, Bool.or_eq_true,
    beq_iff_eq, List.all_eq_true, List.mem_range] at h
  refine ⟨h.1, fun d hd hne => ?_⟩
  rcases h.2 d hd with hc | hc
  · exact absurd hc hne
  · exact hc

lemma shapeLoop_ok_checks {nsk : TensorM} {dimension : Nat}
    {inputs : List TensorM} {n : Nat}
    (h : shapeLoop nsk dimension inputs = .ok n) :
    ∀ t ∈ inputs, should_skip t = false →
      check_shape_except_dim nsk t dimension = true := by
  induction inputs generalizing n with
  | nil => simp
  | cons a rest ih =>
    intro t ht hns
    by_cases ha : should_skip a
    · rw [shapeLoop, if_pos ha] at h
      rcases List.mem_cons.1 ht with rfl | ht
      · rw [ha] at hns; cases hns
      · exact ih h t ht hns
    · rw [shapeLoop, if_neg ha] at h
      by_cases hc : check_shape_except_dim nsk a dimension = true
      · rw [if_pos hc] at h
        rcases List.mem_cons.1 ht with rfl | ht
        · exact hc
        · cases hrest : shapeLoop nsk dimension rest with
          | error e => rw [hrest] at h; cases h
          | ok m => exact ih hrest t ht hns
      · rw [if_neg hc] at h
        cases h

lemma shapeLoop_ok_sum {nsk : TensorM} {dimension : Nat}
    {inputs : List TensorM} {n : Nat}
    (h : shapeLoop nsk dimension inputs = .ok n) :
    n = catDimSum inputs dimension := by
  induction inputs generalizing n with
  | nil =>
    rw [shapeLoop] at h
    cases h
    simp [catDimSum]
  | cons a rest ih =>
    by_cases ha : should_skip a
    · rw [shapeLoop, if_pos ha] at h
      rw [catDimSum, List.filter_cons_of_neg (by simpa using ha)]
      exact ih h
    · rw [shapeLoop, if_neg ha] at h
      by_cases hc : check_shape_except_dim nsk a dimension = true
      · rw [if_pos hc] at h
        cases hrest : shapeLoop nsk dimension rest with
        | error e => rw [hrest] at h; cases h
        | ok m =>
          rw [hrest] at h
          cases h
          rw [catDimSum, List.filter_cons_of_pos (by simpa using ha)]
          simp only [List.map_cons, List.sum_cons]
          rw [ih hrest]
          rfl
      · rw [if_neg hc] at h
        cases h

lemma getD_range_map (n d : Nat) (f : Nat → Nat) (hd : d < n) :
    ((List.range n).map f).getD d 0 = f d := by
  simp [List.getD_eq_getElem?_getD, List.getElem?_map, List.getElem?_range hd]

/-- C4: for every valid input set with at least one non-skipped input,
`impl::cat` resizes the output so that every non-concat dimension's size
equals the first non-skipped input's size in that dimension, and the
concat-dimension size equals the sum over all non-skipped inputs of their
sizes along the concat dimension. -/
theorem cat_resize_shape (result : TensorM) (inputs : List TensorM)
    (dimension : Nat) (allSameType can_cast : Bool)
    (result' first : TensorM)
    (hrun : implCat result inputs dimension allSameType can_cast
      = (result', none))
    (hfirst : firstNonSkipped inputs = some first)
    (hdim : dimension < first.sizes.length) :
    result'.sizes.length = first.sizes.length ∧
      (∀ d, d < result'.sizes.length → d ≠ dimension →
        result'.sizes.getD d 0 = first.sizes.getD d 0) ∧
      result'.sizes.getD dimension 0 = catDimSum inputs dimension := by
  obtain ⟨nsk, hlast, hnskmem, hnskns⟩ :=
    findLastNonSkipped_of_firstNonSkipped hfirst
  obtain ⟨hfmem, hfns⟩ := firstNonSkipped_mem hfirst
  rw [implCat] at hrun
  by_cases hcc : (!can_cast) = true
  · rw [if_pos hcc] at hrun
    simp at hrun
  rw [if_neg hcc] at hrun
  by_cases hov : inputs.any (overlapsOut result) = true
  · rw [if_pos hov] at hrun
    simp at hrun
  rw [if_neg hov, hlast] at hrun
  dsimp only at hrun
  cases hsl : shapeLoop nsk dimension inputs with
  | error e =>
    rw [hsl] at hrun
    simp at hrun
  | ok n =>
    rw [hsl] at hrun
    simp only [] at hrun
    have h1 : result'.sizes
        = (List.range nsk.sizes.length).map fun dim =>
            if dim = dimension then n else nsk.sizes.getD dim 0 := by
      have h := congrArg Prod.fst hrun
      simp only [] at h
      rw [← h]
    obtain ⟨hlenEq, hsizeEq⟩ := check_shape_spec
      (shapeLoop_ok_checks hsl first hfmem hfns)
    have hlen' : result'.sizes.length = nsk.sizes.length := by
      rw [h1]
      simp
    refine ⟨by rw [hlen', hlenEq], fun d hd hne => ?_, ?_⟩
    · rw [hlen'] at hd
      rw [h1, getD_range_map _ _ _ hd, if_neg hne]
      exact hsizeEq d hd hne
    · have hdim' : dimension < nsk.sizes.length := by rw [hlenEq]; exact hdim
      rw [h1, getD_range_map _ _ _ hdim', if_pos rfl]
      exact shapeLoop_ok_sum hsl

/-- An initially empty output tensor for the shape witness, in a storage
disjoint from both inputs. -/
def catOutInit : TensorM :=
  { defined := true, sizes := [0], dtype := 0, storageId := 9,
    storageLo := 0, storageHi := 9, data := fun _ => 0 }

theorem cat_resize_shape_witness :
    firstNonSkipped [catInputA, catInputB] = some catInputA ∧
      (implCat catOutInit [catInputA, catInputB] 0 true true).1.sizes.getD 0 0
        = catDimSum [catInputA, catInputB] 0 := by
  have h2 : (implCat catOutInit [catInputA, catInputB] 0 true true).2
      = none := by rfl
  have hpair : implCat catOutInit [catInputA, catInputB] 0 true true
      = ((implCat catOutInit [catInputA, catInputB] 0 true true).1, none) := by
    rw [← h2]
  refine ⟨rfl, ?_⟩
  exact (cat_resize_shape catOutInit [catInputA, catInputB] 0 true true
    _ catInputA hpair rfl (by decide)).2.2

/-- C5: whenever some input tensor's storage partially or fully overlaps the
output tensor's storage, the public `_cat_out` entry point raises the
aliasing error during validation, before the output is resized or any
element is written: the output tensor is handed back exactly as it came
in (same sizes, same buffer contents). -/
theorem cat_aliasing_error_before_any_write
    (out : TensorM) (tensors : List TensorM) (dimension : Nat)
    (cat_valid can_cast : Bool)
    (hov : ∃ t ∈ tensors, overlapsOut out t = true) :
    catOut out tensors dimension cat_valid can_cast
      = (out, some CatError.aliasingError) := by
  rw [catOut, if_pos (List.any_eq_true.2 hov)]

/-- An input sharing the output's storage with intersecting extents, for
the aliasing witness. -/
def catAliasedInput : TensorM :=
  { defined := true, sizes := [10], dtype := 0, storageId := 9,
    storageLo := 5, storageHi := 15, data := fun _ => 1 }

theorem cat_aliasing_error_before_any_write_witness :
    overlapsOut catOutInit catAliasedInput = true ∧
      catOut catOutInit [catInputA, catAliasedInput] 0 true true
        = (catOutInit, some CatError.aliasingError) :=
  ⟨by decide,
    cat_aliasing_error_before_any_write catOutInit
      [catInputA, catAliasedInput] 0 true true
      ⟨catAliasedInput, by simp, by decide⟩⟩

end CatOps

namespace LinearOps

/-- The elementwise post-op algorithms used by the claims under scrutiny:
`kind_with_relu` (leaky relu via its `alpha` slope) and `kind_with_linear`
(`alpha * x + beta`). -/
inductive EltwiseAlg where
  | relu
  | linear
  deriving DecidableEq, Repr

/-- The binary post-op algorithms used by the claims under scrutiny:
`kind_with_binary_add` (the subtract entry point reuses it with a negated
scale, so no dedicated subtract algorithm exists). -/
inductive BinaryAlg where
  | add
  deriving DecidableEq, Repr

/-- One record of the post-op attribute: either an eltwise activation with
scale/alpha/beta, or a binary operation combining the primary result with a
second tensor under a scale factor (spec section 3, `PostOpAttribute`). -/
inductive PostOp where
  | eltwise (alg : EltwiseAlg) (scale alpha beta : Rat)
  | binary (alg : BinaryAlg) (operand : List Rat) (scale : Rat)

/-- The append-only post-op attribute accumulated by the builder. -/
structure Attr where
  ops : List PostOp

def Attr.empty : Attr := ⟨[]⟩

/-- `Attr::append_post_eltwise(scale, alpha, beta, kind)`: appends exactly
one eltwise record in call order. -/
def Attr.append_post_eltwise (a : Attr) (scale alpha beta : Rat)
    (alg : EltwiseAlg) : Attr :=
  ⟨a.ops ++ [.eltwise alg scale alpha beta]⟩

/-- `Attr::append_scale_binary(kind, operand, scale)`: appends exactly one
binary record in call order. -/
def Attr.append_scale_binary (a : Attr) (alg : BinaryAlg)
    (operand : List Rat) (scale : Rat) : Attr :=
  ⟨a.ops ++ [.binary alg operand scale]⟩

/-- Modelled from the spec: the value of one eltwise activation on an
element of the matmul result.  `relu` with slope `alpha` is the leaky relu
`max(x,0) + alpha*min(x,0)` the spec's fallback contract names; `linear`
is `alpha*x + beta`. -/
def applyEltwise (alg : EltwiseAlg) (alpha beta x : Rat) : Rat :=
  match alg with
  | .relu => max x 0 + alpha * min x 0
  | .linear => alpha * x + beta

/-- Modelled from the spec: the effect of one post-op record on the
elementwise matmul result (`result = matmul + alpha * accumul` for the
binary add, per the `linear_sum` contract comment). -/
def applyPostOp (mm : List Rat) (op : PostOp) : List Rat :=
  match op with
  | .eltwise alg scale alpha beta =>
    mm.map fun x => scale * applyEltwise alg alpha beta x
  | .binary .add operand scale =>
    List.zipWith (fun x b => x + scale * b) mm operand

/-- Post-ops apply in append order to the primary matmul result. -/
def applyAttr (attr : Attr) (mm : List Rat) : List Rat :=
  attr.ops.foldl applyPostOp mm

/-- Modelled from the spec: `matmul_fusion_variants`, the external
fused-matmul service (its code is not under `src/`).  `mm` is the plain
matmul-plus-bias result the service computes from `(input, weight, bias)`,
and `fuse` is the service's opaque fusibility decision.  Per the spec, the
service either executes the matmul with all post-ops fused and reports
`isFused = true`, or reports `isFused = false`, in which case the plain
matmul result is returned and the caller is contractually obligated to
apply every requested post-op itself afterward. -/
def matmul_fusion_variants (mm : List Rat) (attr : Attr) (fuse : Bool) :
    List Rat × Bool :=
  if fuse then (applyAttr attr mm, true) else (mm, false)

/-- Embedding of `linear_leaky_relu` (`Linear.cpp` lines 254-272): append
an eltwise relu post-op with `alpha = negative_slope`, call the fused
service, and return its result — the source applies no caller-side
fallback and never reads `is_fused()`. -/
def linear_leaky_relu (mm : List Rat) (negative_slope : Rat) (fuse : Bool) :
    List Rat :=
  (matmul_fusion_variants mm
    (Attr.empty.append_post_eltwise 1 negative_slope 0 .relu) fuse).1

/-- Modelled from the spec: `at::AtenIpexTypeXPU::add(output, accumul,
alpha)`, the framework elementwise add with scale used by the unfused
fallback of `linear_sum`. -/
def addScaled (output accumul : List Rat) (alpha : Rat) : List Rat :=
  List.zipWith (fun x b => x + alpha * b) output accumul

/-- Embedding of `linear_sum` (`Linear.cpp` lines 318-344): append a
binary-add post-op with scale `alpha`; when the service reports no fusion,
add `alpha * accumul` to the plain matmul result afterward. -/
def linear_sum (mm accumul : List Rat) (alpha : Rat) (fuse : Bool) :
    List Rat :=
  let r := matmul_fusion_variants mm
    (Attr.empty.append_scale_binary .add accumul alpha) fuse
  if r.2 then r.1 else addScaled r.1 accumul alpha

/-- Embedding of `linear_binary_sub` (`Linear.cpp` lines 346-356): delegate
to `linear_sum` with the scale negated. -/
def linear_binary_sub (mm binary : List Rat) (alpha : Rat) (fuse : Bool) :
    List Rat :=
  linear_sum mm binary (-alpha) fuse

/-- Embedding of `linear_scalar_div` (`Linear.cpp` lines 138-157): the
`TORCH_INTERNAL_ASSERT(scalar != 0)` fires first, before the wrapper or
any attribute is constructed; otherwise a `linear` eltwise post-op with
`alpha = 1/scalar, beta = 0` is appended and the service result returned
(again with no caller-side fallback). -/
def linear_scalar_div (mm : List Rat) (scalar : Rat) (fuse : Bool) :
    Except String (List Rat) :=
  if scalar = 0 then .error "div zero in linear_scalar_div"
  else .ok (matmul_fusion_variants mm
    (Attr.empty.append_post_eltwise 1 (1 / scalar) 0 .linear) fuse).1

/-- C1, counterexample: the claim asserts that `linear_leaky_relu` still
carries the leaky-relu post-op when the service reports `isFused = false`.
On the matmul result `[-2]` with slope `1/10`, the unfused call returns
`[-2]`, not the claimed `max(x,0) + (1/10)*min(x,0) = [-1/5]`. -/
theorem linear_leaky_relu_unfused_counterexample :
    linear_leaky_relu [-2] (1 / 10) false
      ≠ [max (-2 : Rat) 0 + (1 / 10) * min (-2 : Rat) 0] := by
  rw [show linear_leaky_relu [-2] (1 / 10) false = [-2] from rfl]
  simp only [ne_eq, List.cons.injEq, and_true]
  norm_num [max_def, min_def]

/-- C1 (amended): `linear_leaky_relu` applies no caller-side fallback — when
the fused-matmul service reports `isFused = false` it returns the plain
matmul result untouched, and the requested post-op
`max(x,0) + slope*min(x,0)` is present exactly when fusion occurred; the
caller-side fallback the spec demands exists only in the binary family,
e.g. `linear_sum`, whose unfused path does add `alpha * accumul`
afterward. -/
theorem linear_leaky_relu_fallback_behavior (mm accumul : List Rat)
    (slope alpha : Rat) :
    linear_leaky_relu mm slope false = mm ∧
      linear_leaky_relu mm slope true
        = mm.map (fun x => max x 0 + slope * min x 0) ∧
      linear_sum mm accumul alpha false = addScaled mm accumul alpha := by
  refine ⟨rfl, ?_, rfl⟩
  simp [linear_leaky_relu, matmul_fusion_variants, applyAttr,
    Attr.append_post_eltwise, Attr.empty, applyPostOp, applyEltwise]

/-- C6: `linear_binary_sub(input, weight, bias, B, s)` computes exactly the
binary-add path with operand `B` and negated scale `-s` (it delegates to
`linear_sum` with `alpha = -s`), and in both the fused and the unfused
fallback case the result adds `-s * B` elementwise to the matmul result. -/
theorem linear_binary_sub_is_neg_scale_add (mm binary : List Rat)
    (s : Rat) (fuse : Bool) :
    linear_binary_sub mm binary s fuse = linear_sum mm binary (-s) fuse ∧
      linear_binary_sub mm binary s fuse
        = List.zipWith (fun x b => x + -s * b) mm binary := by
  refine ⟨rfl, ?_⟩
  cases fuse with
  | false =>
    simp [linear_binary_sub, linear_sum, matmul_fusion_variants, addScaled]
  | true =>
    simp [linear_binary_sub, linear_sum, matmul_fusion_variants, applyAttr,
      Attr.append_scale_binary, Attr.empty, applyPostOp]

/-- C9, counterexample to the unconditional reading: with `isFused = false`
the source returns the plain matmul result without applying the division
(no caller-side fallback exists), so `linear_scalar_div` on `[6]` with
scalar `2` yields `[6]`, not `[3]`. -/
theorem linear_scalar_div_unfused_counterexample :
    linear_scalar_div [6] 2 false ≠ .ok [(6 : Rat) / 2] := by
  intro h
  rw [show linear_scalar_div [6] 2 false = Except.ok [(6 : Rat)] from by
    norm_num [linear_scalar_div, matmul_fusion_variants]] at h
  injection h with h1
  norm_num [List.cons.injEq] at h1

/-- C9 (amended): `linear_scalar_div` fails fatally on a zero scalar, the
check firing eagerly before any attribute or kernel construction and
regardless of the fusion decision; for a nonzero scalar the division is
expressed as a `linear` post-op with `alpha = 1/scalar, beta = 0`, so the
fused result equals the matmul result divided by the scalar. -/
theorem linear_scalar_div_spec (mm : List Rat) (scalar : Rat) (fuse : Bool) :
    linear_scalar_div mm 0 fuse = .error "div zero in linear_scalar_div" ∧
      (scalar ≠ 0 → linear_scalar_div mm scalar true
        = .ok (mm.map fun x => x / scalar)) := by
  refine ⟨rfl, fun hs => ?_⟩
  rw [linear_scalar_div, if_neg hs]
  congr 1
  simp only [matmul_fusion_variants, if_pos rfl, applyAttr,
    Attr.append_post_eltwise, Attr.empty, List.nil_append, List.foldl_cons,
    List.foldl_nil, applyPostOp, applyEltwise]
  refine List.map_congr_left fun x _ => ?_
  field_simp

theorem linear_scalar_div_spec_witness :
    (2 : Rat) ≠ 0 ∧ linear_scalar_div [6] 2 true = .ok [(3 : Rat)] := by
  refine ⟨by norm_num, ?_⟩
  rw [(linear_scalar_div_spec [6] 2 true).2 (by norm_num)]
  norm_num

end LinearOps

namespace TriOps

/-- Row/column recovery of `triu_tril_dpcpp_kernel`
(`BatchLinearAlgebra.cpp` lines 48-54): which stride is larger decides the
storage order, and row/col are recovered from the flat index accordingly. -/
def rowColOf (stride0 stride1 i : Nat) : Nat × Nat :=
  if stride0 > stride1 then (i / stride0, i % stride0 / stride1)
  else (i % stride1 / stride0, i / stride1)

/-- The triangular mask of the kernel (`BatchLinearAlgebra.cpp` line 56):
`upper ? (col - row >= k) : (col - row <= k)`, with the signed difference
taken in `Int` as in the source's signed `IndexType` arithmetic. -/
def triMask (upper : Bool) (k : Int) (stride0 stride1 i : Nat) : Bool :=
  let rc := rowColOf stride0 stride1 i
  if upper then decide (k ≤ (rc.2 : Int) - (rc.1 : Int))
  else decide ((rc.2 : Int) - (rc.1 : Int) ≤ k)

/-- Embedding of `triu_tril_dpcpp_kernel` (`BatchLinearAlgebra.cpp` lines
23-69) on a flat memory: the grid-stride workers jointly visit each
`linearIndex < N` exactly once, writing
`result[linearIndex] = mask ? src[linearIndex] : 0`; with pairwise distinct
write targets the parallel dispatch is embedded as a sequential fold.
`resBase` and `srcBase` are the result and source pointers — the in-place
entry points pass the same pointer for both. -/
def triu_tril_dpcpp_kernel (upper : Bool) (mem : Nat → Int)
    (resBase srcBase stride0 stride1 : Nat) (k : Int) (N : Nat) :
    Nat → Int :=
  (List.range N).foldl
    (fun m li =>
      CatOps.writeAt m (resBase + li)
        (if triMask upper k stride0 stride1 li then m (srcBase + li) else 0))
    mem

/-- Embedding of `triu_dpcpp_out`/`tril_dpcpp_out` (`BatchLinearAlgebra.cpp`
lines 111-138): the result is resized to the source's shape when needed
(reflected here by the caller choosing `N = numel(src)`), the empty source
is a no-op, and otherwise the mask kernel runs with the given `upper`
template argument. -/
def triu_tril_out_mem (upper : Bool) (mem : Nat → Int)
    (resBase srcBase stride0 stride1 : Nat) (k : Int) (N : Nat) :
    Nat → Int :=
  if N = 0 then mem
  else triu_tril_dpcpp_kernel upper mem resBase srcBase stride0 stride1 k N

/-- Embedding of the in-place `triu_`/`tril_` (`BatchLinearAlgebra.cpp`
lines 122-124, 136-138, 244-250): the out-of-place entry point invoked with
the result buffer aliased to the source. -/
def triu_tril_inplace_mem (upper : Bool) (mem : Nat → Int)
    (base stride0 stride1 : Nat) (k : Int) (N : Nat) : Nat → Int :=
  triu_tril_out_mem upper mem base base stride0 stride1 k N

lemma kernel_preserves (upper : Bool) (mem : Nat → Int)
    (r s s0 s1 : Nat) (k : Int) (N : Nat) (p : Nat)
    (hp : ∀ j, j < N → r + j ≠ p) :
    triu_tril_dpcpp_kernel upper mem r s s0 s1 k N p = mem p := by
  induction N with
  | zero => rfl
  | succ n ih =>
    rw [triu_tril_dpcpp_kernel, List.range_succ, List.foldl_append]
    simp only [List.foldl_cons, List.foldl_nil]
    rw [CatOps.writeAt]
    simp only [if_neg (Ne.symm (hp n (by omega)))]
    exact ih fun j hj => hp j (by omega)

lemma kernel_out_spec (upper : Bool) (mem : Nat → Int)
    (r s s0 s1 : Nat) (k : Int) (N : Nat)
    (hdisj : ∀ i j, i < N → j < N → r + i ≠ s + j) :
    ∀ j, j < N →
      triu_tril_dpcpp_kernel upper mem r s s0 s1 k N (r + j)
        = if triMask upper k s0 s1 j then mem (s + j) else 0 := by
  induction N with
  | zero => omega
  | succ n ih =>
    intro j hj
    rw [triu_tril_dpcpp_kernel, List.range_succ, List.foldl_append]
    simp only [List.foldl_cons, List.foldl_nil]
    rw [CatOps.writeAt]
    have hread : triu_tril_dpcpp_kernel upper mem r s s0 s1 k n (s + n)
        = mem (s + n) :=
      kernel_preserves upper mem r s s0 s1 k n (s + n)
        fun i hi => hdisj i n (by omega) (by omega)
    rcases Nat.lt_or_ge j n with hlt | hge
    · rw [if_neg (by omega)]
      exact ih (fun i j2 hi hj2 => hdisj i j2 (by omega) (by omega)) j hlt
    · have hjn : n = j := by omega
      subst hjn
      rw [if_pos rfl]
      rw [show (List.range n).foldl
          (fun m li => CatOps.writeAt m (r + li)
            (if triMask upper k s0 s1 li then m (s + li) else 0)) mem
          = triu_tril_dpcpp_kernel upper mem r s s0 s1 k n from rfl, hread]

lemma kernel_inplace_spec (upper : Bool) (mem : Nat → Int)
    (b s0 s1 : Nat) (k : Int) (N : Nat) :
    ∀ j, j < N →
      triu_tril_dpcpp_kernel upper mem b b s0 s1 k N (b + j)
        = if triMask upper k s0 s1 j then mem (b + j) else 0 := by
  induction N with
  | zero => omega
  | succ n ih =>
    intro j hj
    rw [triu_tril_dpcpp_kernel, List.range_succ, List.foldl_append]
    simp only [List.foldl_cons, List.foldl_nil]
    rw [CatOps.writeAt]
    have hread : triu_tril_dpcpp_kernel upper mem b b s0 s1 k n (b + n)
        = mem (b + n) :=
      kernel_preserves upper mem b b s0 s1 k n (b + n)
        fun i hi => by omega
    rcases Nat.lt_or_ge j n with hlt | hge
    · rw [if_neg (by omega)]
      exact ih j hlt
    · have hjn : n = j := by omega
      subst hjn
      rw [if_pos rfl]
      rw [show (List.range n).foldl
          (fun m li => CatOps.writeAt m (b + li)
            (if triMask upper k s0 s1 li then m (b + li) else 0)) mem
          = triu_tril_dpcpp_kernel upper mem b b s0 s1 k n from rfl, hread]

/-- C10: the in-place forms `triu_`/`tril_` (the result buffer is the very
buffer of the source) produce exactly the same values as the out-of-place
forms writing into a distinct, freshly sized result: the kernel reads
source position `i` and writes result position `i` for the same linear
index only, so aliasing the result with the source never changes any
element's outcome. -/
theorem triu_tril_inplace_matches_out (upper : Bool) (mem mem' : Nat → Int)
    (b r s s0 s1 : Nat) (k : Int) (N j : Nat)
    (hdisj : ∀ i i2, i < N → i2 < N → r + i ≠ s + i2)
    (hsrc : ∀ i, i < N → mem (b + i) = mem' (s + i))
    (hj : j < N) :
    triu_tril_inplace_mem upper mem b s0 s1 k N (b + j)
      = triu_tril_out_mem upper mem' r s s0 s1 k N (r + j) := by
  have hN : N ≠ 0 := by omega
  rw [triu_tril_inplace_mem, triu_tril_out_mem, if_neg hN,
    triu_tril_out_mem, if_neg hN,
    kernel_inplace_spec upper mem b s0 s1 k N j hj,
    kernel_out_spec upper mem' r s s0 s1 k N hdisj j hj, hsrc j hj]

theorem triu_tril_inplace_matches_out_witness :
    (∀ i i2, i < 4 → i2 < 4 → 100 + i ≠ 0 + i2) ∧
      triu_tril_inplace_mem true (fun p => (p : Int)) 0 2 1 0 4 (0 + 1)
        = triu_tril_out_mem true (fun p => (p : Int)) 100 0 2 1 0 4
            (100 + 1) :=
  ⟨by omega,
    triu_tril_inplace_matches_out true (fun p => (p : Int))
      (fun p => (p : Int)) 0 100 0 2 1 0 4 1 (by omega)
      (fun i _ => rfl) (by decide)⟩

/-- C7: the triangular-mask kernel writes `result[i] = source[i]` exactly
when `(upper ? col - row ≥ k : col - row ≤ k)` and `0` otherwise for every
linear position `i` in `[0, N)`, with row and column recovered from the
flat index through the stride comparison of `rowColOf`; consequently
`triu`/`tril` with `k = 0` on a 3x3 all-ones matrix (strides 3 and 1)
yield the standard triangular patterns including the diagonal, and
`k = 1` / `k = -1` shift the kept region one off the diagonal. -/
theorem strided_mask_formula_and_triangular_examples :
    (∀ (upper : Bool) (mem : Nat → Int) (r s s0 s1 : Nat) (k : Int)
        (N : Nat),
        (∀ i j, i < N → j < N → r + i ≠ s + j) →
        ∀ i, i < N →
          triu_tril_dpcpp_kernel upper mem r s s0 s1 k N (r + i)
            = if (if upper then
                    k ≤ ((rowColOf s0 s1 i).2 : Int) - (rowColOf s0 s1 i).1
                  else
                    ((rowColOf s0 s1 i).2 : Int) - (rowColOf s0 s1 i).1 ≤ k)
              then mem (s + i) else 0) ∧
      ((List.range 9).map
          (fun i => triu_tril_out_mem true (fun _ => 1) 100 0 3 1 0 9
            (100 + i))
        = [1, 1, 1, 0, 1, 1, 0, 0, 1]) ∧
      ((List.range 9).map
          (fun i => triu_tril_out_mem false (fun _ => 1) 100 0 3 1 0 9
            (100 + i))
        = [1, 0, 0, 1, 1, 0, 1, 1, 1]) ∧
      ((List.range 9).map
          (fun i => triu_tril_out_mem true (fun _ => 1) 100 0 3 1 1 9
            (100 + i))
        = [0, 1, 1, 0, 0, 1, 0, 0, 0]) ∧
      ((List.range 9).map
          (fun i => triu_tril_out_mem false (fun _ => 1) 100 0 3 1 (-1) 9
            (100 + i))
        = [0, 0, 0, 1, 0, 0, 1, 1, 0]) := by
  refine ⟨?_, by decide, by decide, by decide, by decide⟩
  intro upper mem r s s0 s1 k N hdisj i hi
  rw [kernel_out_spec upper mem r s s0 s1 k N hdisj i hi]
  cases upper <;> simp [triMask]

theorem strided_mask_formula_witness :
    triu_tril_dpcpp_kernel true (fun _ => 1) 100 0 3 1 0 9 (100 + 3)
      = 0 := by
  rw [strided_mask_formula_and_triangular_examples.1 true (fun _ => 1)
    100 0 3 1 0 9 (by omega) 3 (by decide)]
  decide

end TriOps

namespace LuOps

/-- The failure taxonomy of the `_lu_with_info` driver. -/
inductive LuError where
  | noPivot
  | dimTooSmall
  | batchFailure (batchIndex : Nat) (info : Int)
  | singleFailure (info : Int)
  deriving DecidableEq, Repr

/-- Modelled from the spec: `at::native::batchCheckErrors` — the caller
converts the per-batch-element status codes into a reported failure
identifying which batch element failed (the first with a non-zero code). -/
def batchCheckErrors (infos : List Int) : Option LuError :=
  match infos.findIdx? (fun v => v != 0) with
  | none => none
  | some i => some (.batchFailure i (infos.getD i 0))

/-- Modelled from the spec: `at::native::singleCheckErrors` — a non-zero
scalar status is propagated directly as the failure. -/
def singleCheckErrors (info : Int) : Option LuError :=
  if info ≠ 0 then some (.singleFailure info) else none

/-- Embedding of `_lu_with_info` (`BatchLinearAlgebra.cpp` lines 252-287):
pivoting is required, the input needs rank at least 2, the external
factorization service fills the per-batch-element status tensor `infos`
(one entry per batch element; rank-2 inputs have a single scalar status),
and with `check_errors` the driver dispatches on the rank — strictly more
than 2 dimensions go through the batched checker, exactly 2 through the
scalar checker on `infos_tensor.item()`.  The factors themselves are the
opaque service's output; the embedding returns the status tensor on
success. -/
def _lu_with_info (dim : Nat) (infos : List Int)
    (pivot check_errors : Bool) : Except LuError (List Int) :=
  if !pivot then .error .noPivot
  else if dim < 2 then .error .dimTooSmall
  else if check_errors then
    if 2 < dim then
      match batchCheckErrors infos with
      | some e => .error e
      | none => .ok infos
    else
      match singleCheckErrors (infos.headD 0) with
      | some e => .error e
      | none => .ok infos
  else .ok infos

/-- C8: with `check_errors = true` and a non-zero status from the
factorization service, a batched input (rank > 2) surfaces the failure
identifying the offending batch index out of the per-batch-element status
tensor, while a rank-2 input propagates the scalar status directly. -/
theorem lu_check_errors_batch_and_scalar (dim : Nat) (infos : List Int)
    (i : Nat) (v : Int) :
    (2 < dim → infos.findIdx? (fun x => x != 0) = some i →
      _lu_with_info dim infos true true
        = .error (.batchFailure i (infos.getD i 0))) ∧
      (v ≠ 0 → _lu_with_info 2 [v] true true
        = .error (.singleFailure v)) := by
  constructor
  · intro hdim hfind
    rw [_lu_with_info, if_neg (by decide), if_neg (by omega), if_pos rfl,
      if_pos hdim, batchCheckErrors, hfind]
  · intro hv
    rw [_lu_with_info, if_neg (by decide), if_neg (by omega), if_pos rfl,
      if_neg (by omega)]
    simp only [List.headD_cons, singleCheckErrors, if_pos hv]

theorem lu_check_errors_batch_and_scalar_witness :
    _lu_with_info 3 [0, 5] true true
        = .error (.batchFailure 1 5) ∧
      _lu_with_info 2 [7] true true = .error (.singleFailure 7) := by
  have h := lu_check_errors_batch_and_scalar 3 [0, 5] 1 7
  exact ⟨by simpa using h.1 (by omega) (by decide), h.2 (by decide)⟩

end LuOps
